import Mathlib

/-!
Shallow embedding of `pyutils/effhist.py` (`effhist`), the binomial
efficiency-histogram routine.

Numeric values are modelled over `ℚ` (exact arithmetic standing in for the
floats of the source); the error magnitudes, which the source obtains from
`np.sqrt`, live in `ℝ`.

Modelling notes, traceable to the source:
* `np.histogram(x, bins, range)` is embedded by `computeBinEdges` (edge
  construction, following numpy's `_get_bin_edges`/`_get_outer_edges`:
  positivity check on an integer bin count, `ValueError` for a reversed
  explicit range, silent widening of a degenerate range by ±1/2, monotonicity
  check on an explicit edge sequence) together with `histCounts` (counting;
  bins are half-open except the last, which is closed, and values outside the
  outer edges are ignored).
* `x[success]` with mismatched lengths raises `IndexError`; this is the only
  length check the source performs, and it happens after the first
  `np.histogram` call, so edge/range errors take precedence over it.
* In the `full_errors` branch the source runs `for i in range(len(p))`, but
  `range` is the function's own parameter (`None` or a pair), not the Python
  builtin, so this branch always raises `TypeError` before any iteration;
  it is embedded as the error `typeError`.  (The loop body is unreachable
  code; independently, its empty-bin write `perr[1:i] = 1.` slices axis 0
  of the 2×n array instead of indexing cell `[1, i]`.)
-/

namespace Effhist

/-- Failure modes of `effhist`: mismatched `x`/`success` lengths (the
`IndexError` raised by `x[success]`), a malformed bin specification, a
reversed explicit range, and the `TypeError` raised by the `full_errors`
branch (where the parameter `range` shadows the Python builtin). -/
inductive EffErr where
  | invalidInput
  | invalidBins
  | invalidRange
  | typeError
  deriving DecidableEq

/-- The `bins` argument: either an integer count of equal-width bins or an
explicit sequence of bin edges. -/
inductive BinSpec where
  | count (n : ℕ)
  | edges (es : List ℚ)

/-- The triple returned by `effhist`: bin centers, per-bin efficiencies, and
the two rows of the `(2, nbins)` error array (`perr[0]` = lower errors,
`perr[1]` = upper errors). -/
structure EffResult where
  centers : List ℚ
  p : List ℚ
  perrLow : List ℝ
  perrHigh : List ℝ

/-- Minimum of a list (`a.min()`); 0 on the empty list, which the source
never queries. -/
def listMin : List ℚ → ℚ
  | [] => 0
  | a :: t => t.foldl min a

/-- Maximum of a list (`a.max()`). -/
def listMax : List ℚ → ℚ
  | [] => 0
  | a :: t => t.foldl max a

/-- `np.linspace lo hi (n+1)`: the `n + 1` equally spaced edges of `n`
equal-width bins on `[lo, hi]`. -/
def linspace (lo hi : ℚ) (n : ℕ) : List ℚ :=
  (List.range (n + 1)).map (fun j : ℕ => lo + (hi - lo) * (j : ℚ) / (n : ℚ))

/-- numpy's `_get_outer_edges`: resolve the outer histogram range from the
`range` argument or from the data.  A reversed explicit range raises; a
degenerate range (or degenerate data) is silently widened by ±1/2; an empty
array with no explicit range gives `(0, 1)`. -/
def getOuterEdges (x : List ℚ) (rng : Option (ℚ × ℚ)) : Except EffErr (ℚ × ℚ) :=
  match rng with
  | some (lo, hi) =>
      if hi < lo then .error .invalidRange
      else if lo = hi then .ok (lo - 1/2, hi + 1/2)
      else .ok (lo, hi)
  | none =>
      match x with
      | [] => .ok (0, 1)
      | _ :: _ =>
          let lo := listMin x
          let hi := listMax x
          if lo = hi then .ok (lo - 1/2, hi + 1/2)
          else .ok (lo, hi)

/-- Adjacent non-decrease, numpy's monotonicity requirement on an explicit
edge sequence (`np.any(bin_edges[:-1] > bin_edges[1:])`). -/
def chainLE : List ℚ → Bool
  | [] => true
  | [_] => true
  | a :: b :: t => decide (a ≤ b) && chainLE (b :: t)

/-- numpy's `_get_bin_edges`: an integer bin count must be positive and is
combined with the outer range into equally spaced edges; an explicit edge
sequence must have at least two edges and be monotonic (the `range` argument
is ignored in that case). -/
def computeBinEdges (x : List ℚ) (bins : BinSpec) (rng : Option (ℚ × ℚ)) :
    Except EffErr (List ℚ) :=
  match bins with
  | .count n =>
      if n < 1 then .error .invalidBins
      else
        match getOuterEdges x rng with
        | .error e => .error e
        | .ok (lo, hi) => .ok (linspace lo hi n)
  | .edges es =>
      if es.length < 2 then .error .invalidBins
      else if ¬ chainLE es then .error .invalidBins
      else .ok es

/-- The bin index a value falls into, `none` when the value lies outside the
outer edges.  Bins are half-open `[e_i, e_{i+1})` except the last, which is
closed at the rightmost edge (numpy's convention). -/
def findBin (edges : List ℚ) (v : ℚ) : Option ℕ :=
  if v < edges.headD 0 ∨ edges.getLastD 0 < v then none
  else if v = edges.getLastD 0 then some (edges.length - 1 - 1)
  else some (edges.countP (fun e => decide (e ≤ v)) - 1)

/-- Per-bin occupation counts of `np.histogram`: for each of the
`edges.length - 1` bins, the number of values assigned to it. -/
def histCounts (edges : List ℚ) (xs : List ℚ) : List ℕ :=
  (List.range (edges.length - 1)).map
    (fun i => xs.countP (fun v => decide (findBin edges v = some i)))

/-- Boolean-mask selection/filtering: `l[mask]` for a 1-d array `l`.  Used
both for `x[success]` and for the `[valid]` filtering of the outputs. -/
def maskFilter {α : Type} : List Bool → List α → List α
  | [], _ => []
  | _, [] => []
  | b :: bs, a :: t => if b then a :: maskFilter bs t else maskFilter bs t

/-- The point estimate `success/total` for one bin. -/
def pQ (n s : ℕ) : ℚ := (s : ℚ) / (n : ℚ)

/-- The efficiency array: zeros, overwritten with `success/total` on valid
bins (`p = np.zeros(...); p[valid] = hist_success[valid]/hist_x[valid]`). -/
def effP (tot suc : List ℕ) : List ℚ :=
  (tot.zip suc).map (fun ns => if ns.1 = 0 then 0 else pQ ns.1 ns.2)

/-- The validity mask `hist_x > 0`. -/
def validMask (edges : List ℚ) (x : List ℚ) : List Bool :=
  (histCounts edges x).map (fun n => decide (0 < n))

/-- Row 0 of the approximate-mode error array: zeros, overwritten with
`sqrt(p (1-p) / total)` on valid bins. -/
noncomputable def approxRow0 (tot suc : List ℕ) : List ℝ :=
  (tot.zip suc).map (fun ns =>
    if ns.1 = 0 then 0
    else Real.sqrt ((pQ ns.1 ns.2 * (1 - pQ ns.1 ns.2) / (ns.1 : ℚ) : ℚ) : ℝ))

/-- Row 1 of the approximate-mode error array: as row 0 on valid bins, and 1
on empty bins (`perr[1, np.invert(valid)] = 1.`). -/
noncomputable def approxRow1 (tot suc : List ℕ) : List ℝ :=
  (tot.zip suc).map (fun ns =>
    if ns.1 = 0 then 1
    else Real.sqrt ((pQ ns.1 ns.2 * (1 - pQ ns.1 ns.2) / (ns.1 : ℚ) : ℚ) : ℝ))

/-- Bin centers, midpoints of adjacent edges
(`(bin_edges[:-1] + bin_edges[1:]) / 2`). -/
def binCenters (edges : List ℚ) : List ℚ :=
  (edges.zip edges.tail).map (fun e2 => (e2.1 + e2.2) / 2)

/-- The embedding of `effhist`.  Steps, in source order: build the bin edges
(a malformed `bins`/`range` raises here), histogram `x`, histogram
`x[success]` over the same edges (raising `IndexError` when the lengths
differ), form the efficiencies, then either raise `TypeError` (the
`full_errors` branch calls the shadowed `range`) or fill the approximate
errors, and finally return everything or only the valid bins. -/
noncomputable def effhist (x : List ℚ) (success : List Bool) (bins : BinSpec)
    (rng : Option (ℚ × ℚ)) (full_errors return_all : Bool) :
    Except EffErr EffResult :=
  match computeBinEdges x bins rng with
  | .error e => .error e
  | .ok edges =>
      if x.length ≠ success.length then .error .invalidInput
      else
        let hist_x := histCounts edges x
        let hist_success := histCounts edges (maskFilter success x)
        let p := effP hist_x hist_success
        if full_errors then .error .typeError
        else
          let valid := validMask edges x
          let row0 := approxRow0 hist_x hist_success
          let row1 := approxRow1 hist_x hist_success
          let cs := binCenters edges
          if return_all then .ok ⟨cs, p, row0, row1⟩
          else .ok ⟨maskFilter valid cs, maskFilter valid p,
                    maskFilter valid row0, maskFilter valid row1⟩

/-- The indices at which a boolean mask holds, in increasing order. -/
def validIdx (mask : List Bool) : List ℕ :=
  (List.range mask.length).filter (fun i => mask.getD i false)

end Effhist

namespace Effhist

/-! ### Pipeline unfolding lemmas -/

/-- When the bin edges are well formed and the lengths mismatch is absent,
a `full_errors` call reaches the `for i in range(len(p))` statement and
raises `TypeError` (the parameter `range` shadows the builtin). -/
theorem effhist_err_typeError {x : List ℚ} {success : List Bool} {bins : BinSpec}
    {rng : Option (ℚ × ℚ)} {es : List ℚ} (ra : Bool)
    (hes : computeBinEdges x bins rng = .ok es)
    (hlen : x.length = success.length) :
    effhist x success bins rng true ra = .error .typeError := by
  unfold effhist
  rw [hes]
  simp [hlen]

/-- Unfolding of a successful approximate-mode call with `return_all = True`. -/
theorem effhist_ok_all {x : List ℚ} {success : List Bool} {bins : BinSpec}
    {rng : Option (ℚ × ℚ)} {es : List ℚ}
    (hes : computeBinEdges x bins rng = .ok es)
    (hlen : x.length = success.length) :
    effhist x success bins rng false true =
      .ok ⟨binCenters es,
           effP (histCounts es x) (histCounts es (maskFilter success x)),
           approxRow0 (histCounts es x) (histCounts es (maskFilter success x)),
           approxRow1 (histCounts es x) (histCounts es (maskFilter success x))⟩ := by
  unfold effhist
  rw [hes]
  simp [hlen]

/-- Unfolding of a successful approximate-mode call with `return_all = False`:
all four sequences are filtered through the validity mask. -/
theorem effhist_ok_filtered {x : List ℚ} {success : List Bool} {bins : BinSpec}
    {rng : Option (ℚ × ℚ)} {es : List ℚ}
    (hes : computeBinEdges x bins rng = .ok es)
    (hlen : x.length = success.length) :
    effhist x success bins rng false false =
      .ok ⟨maskFilter (validMask es x) (binCenters es),
           maskFilter (validMask es x)
             (effP (histCounts es x) (histCounts es (maskFilter success x))),
           maskFilter (validMask es x)
             (approxRow0 (histCounts es x) (histCounts es (maskFilter success x))),
           maskFilter (validMask es x)
             (approxRow1 (histCounts es x) (histCounts es (maskFilter success x)))⟩ := by
  unfold effhist
  rw [hes]
  simp [hlen]

/-! ### List-level facts about the helpers -/

/-- Boolean-mask filtering yields a sublist of the filtered list. -/
theorem maskFilter_sublist {α : Type} (mask : List Bool) (l : List α) :
    List.Sublist (maskFilter mask l) l := by
  induction mask generalizing l with
  | nil => simp [maskFilter]
  | cons b bs ih =>
    cases l with
    | nil => simp [maskFilter]
    | cons a t =>
      by_cases hb : b = true
      · simpa [maskFilter, hb] using (ih t).cons₂ a
      · simp only [Bool.not_eq_true] at hb
        simpa [maskFilter, hb] using (ih t).cons a

/-- Filtering through an all-false mask drops everything. -/
theorem maskFilter_all_false {α : Type} (mask : List Bool) (l : List α)
    (h : ∀ b ∈ mask, b = false) : maskFilter mask l = [] := by
  induction mask generalizing l with
  | nil => simp [maskFilter]
  | cons b bs ih =>
    cases l with
    | nil => simp [maskFilter]
    | cons a t =>
      have hb : b = false := h b (by simp)
      simp only [maskFilter, hb, Bool.false_eq_true, if_false]
      exact ih t (fun c hc => h c (by simp [hc]))

/-- Mask filtering distributes over appending equal-length blocks. -/
theorem maskFilter_append {α : Type} (bs : List Bool) (xs : List α)
    (cs : List Bool) (ys : List α) (h : bs.length = xs.length) :
    maskFilter (bs ++ cs) (xs ++ ys) = maskFilter bs xs ++ maskFilter cs ys := by
  induction bs generalizing xs with
  | nil =>
    cases xs with
    | nil => simp [maskFilter]
    | cons a t => simp at h
  | cons b bt ih =>
    cases xs with
    | nil => simp at h
    | cons a t =>
      simp only [List.length_cons, Nat.add_right_cancel_iff] at h
      cases b <;> simp [maskFilter, ih t h]

/-- Indexing a map over `List.range` inside bounds. -/
theorem getD_range_map {α : Type} (f : ℕ → α) (d : α) {i n : ℕ} (hi : i < n) :
    ((List.range n).map f).getD i d = f i := by
  rw [List.getD_eq_getElem?_getD, List.getElem?_map, List.getElem?_range hi]
  rfl

/-- Unfolding `validIdx` over a cons cell. -/
theorem validIdx_cons (b : Bool) (bs : List Bool) :
    validIdx (b :: bs) = (if b then [0] else []) ++ (validIdx bs).map Nat.succ := by
  unfold validIdx
  rw [List.length_cons, List.range_succ_eq_map, List.filter_cons]
  rw [List.filter_map]
  have hcomp : ((fun i => (b :: bs).getD i false) ∘ Nat.succ) = fun i => bs.getD i false := by
    funext i
    simp [Function.comp, List.getD_cons_succ]
  rw [hcomp]
  cases b <;> simp

/-- Boolean-mask filtering is a positionally consistent selection: it equals
the map, over the indices at which the mask holds, of positional lookup in
the filtered list. -/
theorem maskFilter_eq_map_validIdx {α : Type} (d : α) (mask : List Bool) (l : List α)
    (h : mask.length = l.length) :
    maskFilter mask l = (validIdx mask).map (fun i => l.getD i d) := by
  induction mask generalizing l with
  | nil => simp [maskFilter, validIdx]
  | cons b bs ih =>
    cases l with
    | nil => simp at h
    | cons a t =>
      simp only [List.length_cons, Nat.add_right_cancel_iff] at h
      rw [validIdx_cons, List.map_append, List.map_map]
      have hcomp : ((fun i => (a :: t).getD i d) ∘ Nat.succ) = fun i => t.getD i d := by
        funext i
        simp [Function.comp, List.getD_cons_succ]
      rw [hcomp, ← ih t h]
      cases b <;> simp [maskFilter]

/-- Histogram counts are monotone under passing to a sublist of the data;
in particular the success counts never exceed the total counts. -/
theorem histCounts_getD_le (es : List ℚ) {ys xs : List ℚ}
    (h : List.Sublist ys xs) (i : ℕ) :
    (histCounts es ys).getD i 0 ≤ (histCounts es xs).getD i 0 := by
  unfold histCounts
  by_cases hi : i < es.length - 1
  · rw [getD_range_map _ _ hi, getD_range_map _ _ hi]
    exact h.countP_le _
  · rw [List.getD_eq_default, List.getD_eq_default] <;>
      simp [Nat.le_of_not_lt hi]

/-- Every entry of the efficiency array lies in `[0, 1]` as soon as the
success counts are pointwise bounded by the total counts. -/
theorem effP_bounds : ∀ (tot suc : List ℕ),
    (∀ i, suc.getD i 0 ≤ tot.getD i 0) → ∀ q ∈ effP tot suc, 0 ≤ q ∧ q ≤ 1 := by
  intro tot
  induction tot with
  | nil => intro suc h q hq; simp [effP] at hq
  | cons n nt ih =>
    intro suc h q hq
    cases suc with
    | nil => simp [effP] at hq
    | cons s st =>
      simp only [effP, List.zip_cons_cons, List.map_cons, List.mem_cons] at hq
      rcases hq with rfl | hq
      · by_cases hn : n = 0
        · simp [hn]
        · have hs : s ≤ n := by simpa using h 0
          have hnpos : (0 : ℚ) < (n : ℚ) := by
            exact_mod_cast Nat.pos_of_ne_zero hn
          simp only [hn, if_false, pQ]
          constructor
          · positivity
          · rw [div_le_one hnpos]
            exact_mod_cast hs
      · exact ih st (fun i => by simpa using h (i + 1)) q (by simpa [effP] using hq)

/-- The first linspace edge is the lower range bound. -/
theorem linspace_headD (lo hi : ℚ) (n : ℕ) : (linspace lo hi n).headD 0 = lo := by
  unfold linspace
  rw [List.range_succ_eq_map]
  simp

/-- The last linspace edge is the upper range bound. -/
theorem linspace_getLastD (lo hi : ℚ) {n : ℕ} (hn : n ≠ 0) :
    (linspace lo hi n).getLastD 0 = hi := by
  unfold linspace
  rw [List.range_succ, List.map_append]
  simp only [List.map_cons, List.map_nil]
  rw [List.getLastD_concat]
  have hq : (n : ℚ) ≠ 0 := Nat.cast_ne_zero.mpr hn
  field_simp

/-- In a strictly increasing edge list the first edge is at most the last. -/
theorem chain_headD_le_getLastD : ∀ (es : List ℚ),
    List.Chain' (· < ·) es → es ≠ [] → es.headD 0 ≤ es.getLastD 0 := by
  intro es
  induction es with
  | nil => intro _ h; exact absurd rfl h
  | cons a t ih =>
    intro hc _
    cases t with
    | nil => simp
    | cons b u =>
      rw [List.chain'_cons] at hc
      have hb := ih hc.2 (by simp)
      calc (a :: b :: u).headD 0 = a := rfl
        _ ≤ b := le_of_lt hc.1
        _ = (b :: u).headD 0 := rfl
        _ ≤ (b :: u).getLastD 0 := hb
        _ = (a :: b :: u).getLastD 0 := by simp [List.getLastD_cons]

/-- There are `nbins = edges.length - 1` per-bin counts. -/
theorem histCounts_length (es xs : List ℚ) : (histCounts es xs).length = es.length - 1 := by
  simp [histCounts]

/-- The validity mask has one entry per bin. -/
theorem validMask_length (es x : List ℚ) : (validMask es x).length = es.length - 1 := by
  simp [validMask, histCounts]

/-- There is one center per bin. -/
theorem binCenters_length (es : List ℚ) : (binCenters es).length = es.length - 1 := by
  simp [binCenters]

/-- Length of the efficiency array. -/
theorem effP_length (tot suc : List ℕ) :
    (effP tot suc).length = min tot.length suc.length := by
  simp [effP]

/-- Length of error row 0. -/
theorem approxRow0_length (tot suc : List ℕ) :
    (approxRow0 tot suc).length = min tot.length suc.length := by
  simp [approxRow0]

/-- Length of error row 1. -/
theorem approxRow1_length (tot suc : List ℕ) :
    (approxRow1 tot suc).length = min tot.length suc.length := by
  simp [approxRow1]

end Effhist

namespace Effhist

/-! ### Claim theorems -/

/-- C1: In approximate mode an empty bin does get `p = 0` and `err_high = 1`
(first conjunct, at an input whose two bins are both empty, with
`return_all` true), but in full-errors mode the same call produces no
per-bin results at all: it raises `TypeError`, because the loop statement
`for i in range(len(p))` calls the parameter `range` (here the tuple
`(0, 4)`) instead of the builtin.  The claim's "both error modes" therefore
fails on the code. -/
theorem effhist_empty_bin_err_high :
    effhist [5] [true] (.count 2) (some (0, 4)) false true =
      .ok ⟨[1, 3], [0, 0], [0, 0], [1, 1]⟩
    ∧ effhist [5] [true] (.count 2) (some (0, 4)) true true = .error .typeError := by
  have hes : computeBinEdges [5] (.count 2) (some (0, 4)) = .ok [0, 2, 4] := by
    norm_num [computeBinEdges, getOuterEdges, linspace, List.range_succ]
  constructor
  · rw [effhist_ok_all hes rfl]
    norm_num [binCenters, histCounts, findBin, maskFilter, effP, approxRow0, approxRow1,
      List.range_succ, List.countP_cons]
  · exact effhist_err_typeError true hes rfl

/-- C2 counterexample: a call with mismatched lengths (1 vs 2) and a
reversed range fails with `InvalidRange`, not `InvalidInput`: the first
`np.histogram` call runs before `x[success]`, so the claim's "for every
pair with `len(x) != len(success)` ... fails with InvalidInput" is false
as stated. -/
theorem effhist_len_mismatch_range_precedence :
    effhist [1] [true, true] (.count 10) (some (1, 0)) false false = .error .invalidRange
    ∧ EffErr.invalidRange ≠ EffErr.invalidInput :=
  ⟨rfl, by decide⟩

/-- C2 (amended): whenever the bin specification and range are well formed
(bin-edge construction succeeds), a call with `len(x) != len(success)`
fails with `InvalidInput` — in either error mode and for either
`return_all` — and no result is produced. -/
theorem effhist_len_mismatch_invalidInput (x : List ℚ) (success : List Bool)
    (bins : BinSpec) (rng : Option (ℚ × ℚ)) (fe ra : Bool) (es : List ℚ)
    (hes : computeBinEdges x bins rng = .ok es)
    (hlen : x.length ≠ success.length) :
    effhist x success bins rng fe ra = .error .invalidInput := by
  unfold effhist
  rw [hes]
  simp [hlen]

/-- C2 witness: the amended theorem applied at a concrete mismatched call. -/
theorem effhist_len_mismatch_invalidInput_witness :
    effhist [1] [true, true] (.count 1) none false false = .error .invalidInput :=
  effhist_len_mismatch_invalidInput [1] [true, true] (.count 1) none false false [1/2, 3/2]
    (by norm_num [computeBinEdges, getOuterEdges, listMin, listMax, linspace, List.range_succ])
    (by decide)

/-- C3: every efficiency in a returned result lies in `[0, 1]`, and this
rests on the invariant that per-bin success counts never exceed per-bin
total counts (second conjunct, stated for the bin edges of the call). -/
theorem effhist_p_in_unit_interval (x : List ℚ) (success : List Bool) (bins : BinSpec)
    (rng : Option (ℚ × ℚ)) (fe ra : Bool) (res : EffResult)
    (h : effhist x success bins rng fe ra = .ok res) :
    (∀ q ∈ res.p, 0 ≤ q ∧ q ≤ 1)
    ∧ ∀ es i, computeBinEdges x bins rng = .ok es →
        (histCounts es (maskFilter success x)).getD i 0 ≤ (histCounts es x).getD i 0 := by
  have hpoint : ∀ es : List ℚ, ∀ i,
      (histCounts es (maskFilter success x)).getD i 0 ≤ (histCounts es x).getD i 0 :=
    fun es i => histCounts_getD_le es (maskFilter_sublist success x) i
  refine ⟨?_, fun es i _ => hpoint es i⟩
  unfold effhist at h
  rcases hes : computeBinEdges x bins rng with e | es
  · rw [hes] at h
    simp at h
  · rw [hes] at h
    by_cases hlen : x.length = success.length
    · simp only [hlen, ne_eq, not_true_eq_false, if_false] at h
      cases fe
      · cases ra
        · simp only [Bool.false_eq_true, if_false] at h
          rw [Except.ok.injEq] at h
          subst h
          intro q hq
          exact effP_bounds _ _ (hpoint es) q ((maskFilter_sublist _ _).subset hq)
        · simp only [Bool.false_eq_true, if_false, if_true] at h
          rw [Except.ok.injEq] at h
          subst h
          intro q hq
          exact effP_bounds _ _ (hpoint es) q hq
      · simp at h
    · simp [hlen] at h

/-- C3 witness: the theorem applied at a concrete call whose only
efficiency entry is 0. -/
theorem effhist_p_in_unit_interval_witness :
    0 ≤ (0 : ℚ) ∧ (0 : ℚ) ≤ 1 :=
  (effhist_p_in_unit_interval [5] [true] (.count 1) (some (0, 4)) false true
    ⟨[2], [0], [0], [1]⟩ (by
      have hes : computeBinEdges [5] (.count 1) (some (0, 4)) = .ok [0, 4] := by
        norm_num [computeBinEdges, getOuterEdges, linspace, List.range_succ]
      rw [effhist_ok_all hes rfl]
      norm_num [binCenters, histCounts, findBin, maskFilter, effP, approxRow0, approxRow1,
        List.range_succ, List.countP_cons])).1 0 (by simp)

/-- C4: a valid full-errors call never reaches the per-bin walk, let alone
completes it: it fails with `TypeError` at `for i in range(len(p))`
because the parameter `range` (here `None`) shadows the Python builtin, so
the exact-mode computation does not run to completion on any input. -/
theorem effhist_full_errors_type_error :
    effhist [1] [true] (.count 1) none true false = .error .typeError := by
  have hes : computeBinEdges [1] (.count 1) none = .ok [1/2, 3/2] := by
    norm_num [computeBinEdges, getOuterEdges, listMin, listMax, linspace, List.range_succ]
  exact effhist_err_typeError false hes rfl

/-- C5 counterexample: with `full_errors` and `return_all` both true on a
valid input, the call returns no bins at all — it raises `TypeError` — so
the claim's universally quantified "when return_all is true, all bins are
returned" is false as stated. -/
theorem effhist_return_all_full_mode_error :
    effhist [1] [true] (.count 1) none true true = .error .typeError := by
  have hes : computeBinEdges [1] (.count 1) none = .ok [1/2, 3/2] := by
    norm_num [computeBinEdges, getOuterEdges, listMin, listMax, linspace, List.range_succ]
  exact effhist_err_typeError true hes rfl

/-- C5 (amended, for approximate mode — the only mode that returns):
with `return_all` true every bin is returned; with `return_all` false all
four sequences are the map of positional lookup over one common index list
`validIdx (validMask es x)`, which by the third conjunct consists exactly
of the indices with a positive total count — so precisely the empty bins
are dropped, positionally consistently across centers, efficiencies and
both error rows. -/
theorem effhist_filtering_positional (x : List ℚ) (success : List Bool) (bins : BinSpec)
    (rng : Option (ℚ × ℚ)) (es : List ℚ)
    (hes : computeBinEdges x bins rng = .ok es)
    (hlen : x.length = success.length) :
    effhist x success bins rng false true =
      .ok ⟨binCenters es,
           effP (histCounts es x) (histCounts es (maskFilter success x)),
           approxRow0 (histCounts es x) (histCounts es (maskFilter success x)),
           approxRow1 (histCounts es x) (histCounts es (maskFilter success x))⟩
    ∧ effhist x success bins rng false false =
      .ok ⟨(validIdx (validMask es x)).map (fun i => (binCenters es).getD i 0),
           (validIdx (validMask es x)).map (fun i =>
             (effP (histCounts es x) (histCounts es (maskFilter success x))).getD i 0),
           (validIdx (validMask es x)).map (fun i =>
             (approxRow0 (histCounts es x) (histCounts es (maskFilter success x))).getD i 0),
           (validIdx (validMask es x)).map (fun i =>
             (approxRow1 (histCounts es x) (histCounts es (maskFilter success x))).getD i 0)⟩
    ∧ ∀ i, (validMask es x).getD i false = decide (0 < (histCounts es x).getD i 0) := by
  refine ⟨effhist_ok_all hes hlen, ?_, ?_⟩
  · rw [effhist_ok_filtered hes hlen]
    have hc : (validMask es x).length = (binCenters es).length := by
      rw [validMask_length, binCenters_length]
    have hp : (validMask es x).length =
        (effP (histCounts es x) (histCounts es (maskFilter success x))).length := by
      rw [validMask_length, effP_length, histCounts_length, histCounts_length, min_self]
    have h0 : (validMask es x).length =
        (approxRow0 (histCounts es x) (histCounts es (maskFilter success x))).length := by
      rw [validMask_length, approxRow0_length, histCounts_length, histCounts_length, min_self]
    have h1 : (validMask es x).length =
        (approxRow1 (histCounts es x) (histCounts es (maskFilter success x))).length := by
      rw [validMask_length, approxRow1_length, histCounts_length, histCounts_length, min_self]
    rw [maskFilter_eq_map_validIdx 0 _ _ hc, maskFilter_eq_map_validIdx 0 _ _ hp,
      maskFilter_eq_map_validIdx 0 _ _ h0, maskFilter_eq_map_validIdx 0 _ _ h1]
  · intro i
    by_cases hi : i < es.length - 1
    · unfold validMask histCounts
      rw [List.map_map, getD_range_map _ _ hi, getD_range_map _ _ hi]
      rfl
    · rw [List.getD_eq_default, List.getD_eq_default]
      · simp
      · rw [histCounts_length]
        omega
      · rw [validMask_length]
        omega

/-- C5 witness: the amended theorem applied at a concrete two-bin call with
one empty bin. -/
theorem effhist_filtering_positional_witness :
    (validMask [0, 2, 4] [3]).getD 0 false =
      decide (0 < (histCounts [0, 2, 4] [3]).getD 0 0) :=
  (effhist_filtering_positional [3] [true] (.count 2) (some (0, 4)) [0, 2, 4]
    (by norm_num [computeBinEdges, getOuterEdges, linspace, List.range_succ]) rfl).2.2 0

/-- C6: `effhist([1,2,3,4,5], [T,F,T,F,T], bins=1)` in approximate mode
gives one bin with edges `[1, 5]`, total count 5, success count 3, center
3, efficiency `p = 3/5 = 0.6`, and error `sqrt(0.6 * 0.4 / 5) =
sqrt(6/125)` on both sides, which is within `10^-3` of `0.2191`. -/
theorem effhist_edge_case_five_values :
    computeBinEdges [1, 2, 3, 4, 5] (.count 1) none = .ok [1, 5]
    ∧ histCounts [1, 5] [1, 2, 3, 4, 5] = [5]
    ∧ histCounts [1, 5] (maskFilter [true, false, true, false, true] [1, 2, 3, 4, 5]) = [3]
    ∧ effhist [1, 2, 3, 4, 5] [true, false, true, false, true] (.count 1) none false false =
        .ok ⟨[3], [3/5], [Real.sqrt ((6 : ℝ)/125)], [Real.sqrt ((6 : ℝ)/125)]⟩
    ∧ |Real.sqrt ((6 : ℝ)/125) - 2191/10000| < 1/1000 := by
  have hes : computeBinEdges [1, 2, 3, 4, 5] (.count 1) none = .ok [1, 5] := by
    norm_num [computeBinEdges, getOuterEdges, listMin, listMax, linspace, List.range_succ]
  refine ⟨hes, ?_, ?_, ?_, ?_⟩
  · norm_num [histCounts, findBin, List.range_succ, List.countP_cons]
  · norm_num [histCounts, findBin, maskFilter, List.range_succ, List.countP_cons]
  · rw [effhist_ok_filtered hes rfl]
    norm_num [binCenters, histCounts, findBin, maskFilter, effP, pQ, validMask,
      approxRow0, approxRow1, List.range_succ, List.countP_cons]
  · have h0 : (0 : ℝ) ≤ 6/125 := by norm_num
    have hs := Real.sq_sqrt h0
    have hnn := Real.sqrt_nonneg ((6 : ℝ)/125)
    rw [abs_lt]
    constructor <;> nlinarith [hs, hnn]

/-- C7: `effhist` is deterministic — two calls on identical argument tuples
yield identical outputs; the embedding is a pure function of exactly these
six arguments, mirroring the source, which reads no other state and has no
side effects beyond its return value. -/
theorem effhist_deterministic (x₁ x₂ : List ℚ) (s₁ s₂ : List Bool) (b₁ b₂ : BinSpec)
    (r₁ r₂ : Option (ℚ × ℚ)) (f₁ f₂ a₁ a₂ : Bool)
    (hx : x₁ = x₂) (hs : s₁ = s₂) (hb : b₁ = b₂) (hr : r₁ = r₂)
    (hf : f₁ = f₂) (ha : a₁ = a₂) :
    effhist x₁ s₁ b₁ r₁ f₁ a₁ = effhist x₂ s₂ b₂ r₂ f₂ a₂ := by
  subst hx hs hb hr hf ha
  rfl

/-- C7 witness: the theorem applied at a concrete pair of identical calls. -/
theorem effhist_deterministic_witness :
    effhist [1] [true] (.count 10) none false false =
      effhist [1] [true] (.count 10) none false false :=
  effhist_deterministic [1] [1] [true] [true] (.count 10) (.count 10) none none
    false false false false rfl rfl rfl rfl rfl rfl

/-- C8 counterexample: a supplied range with `low = high` (so `low >= high`)
does not fail at all: numpy widens `(1, 1)` to `(1/2, 3/2)` and the call
returns a normal single-bin result, so the claim's `low >= high` is false
as stated. -/
theorem effhist_degenerate_range_ok :
    effhist [1] [true] (.count 1) (some (1, 1)) false false =
      .ok ⟨[1], [1], [0], [0]⟩ := by
  have hes : computeBinEdges [1] (.count 1) (some (1, 1)) = .ok [1/2, 3/2] := by
    norm_num [computeBinEdges, getOuterEdges, linspace, List.range_succ]
  rw [effhist_ok_filtered hes rfl]
  norm_num [binCenters, histCounts, findBin, maskFilter, effP, pQ, validMask,
    approxRow0, approxRow1, List.range_succ, List.countP_cons]

/-- C8 (amended): with an integer bin count `n >= 1` and a supplied range
with strictly `low > high`, the call fails with `InvalidRange`, in every
mode; a degenerate range `low = high` is instead accepted and widened. -/
theorem effhist_range_reversed_invalidRange (x : List ℚ) (success : List Bool)
    (n : ℕ) (lo hi : ℚ) (fe ra : Bool) (hn : 1 ≤ n) (h : hi < lo) :
    effhist x success (.count n) (some (lo, hi)) fe ra = .error .invalidRange := by
  have hn' : ¬ n < 1 := by omega
  unfold effhist computeBinEdges getOuterEdges
  simp [hn', h]

/-- C8 witness: the amended theorem applied at a concrete reversed range. -/
theorem effhist_range_reversed_invalidRange_witness :
    effhist [1] [true] (.count 1) (some (1, 0)) false false = .error .invalidRange :=
  effhist_range_reversed_invalidRange [1] [true] 1 1 0 false false (by norm_num) (by norm_num)

/-- C9: for strictly increasing edges, a value exactly equal to the
rightmost edge is assigned to the last bin rather than dropped as
out-of-range: appending it to the data increments the last bin's total
count by one, and appending it with a `True` outcome increments the last
bin's success count (the count of the masked data) by one as well. -/
theorem last_edge_in_last_bin (es xs : List ℚ) (bs : List Bool)
    (hchain : List.Chain' (· < ·) es) (hlen2 : 2 ≤ es.length)
    (hxb : xs.length = bs.length) :
    findBin es (es.getLastD 0) = some (es.length - 2)
    ∧ (histCounts es (xs ++ [es.getLastD 0])).getD (es.length - 2) 0
        = (histCounts es xs).getD (es.length - 2) 0 + 1
    ∧ (histCounts es (maskFilter (bs ++ [true]) (xs ++ [es.getLastD 0]))).getD
          (es.length - 2) 0
        = (histCounts es (maskFilter bs xs)).getD (es.length - 2) 0 + 1 := by
  have hne : es ≠ [] := by
    intro hnil
    rw [hnil] at hlen2
    simp at hlen2
  have hhl := chain_headD_le_getLastD es hchain hne
  have h1 : findBin es (es.getLastD 0) = some (es.length - 2) := by
    unfold findBin
    rw [if_neg, if_pos rfl]
    · have h2 : es.length - 1 - 1 = es.length - 2 := by omega
      rw [h2]
    · intro hcon
      rcases hcon with hlt | hlt
      · exact absurd hhl (not_le.mpr hlt)
      · exact lt_irrefl _ hlt
  have hidx : es.length - 2 < es.length - 1 := by omega
  have hcount : ∀ ys : List ℚ,
      (histCounts es (ys ++ [es.getLastD 0])).getD (es.length - 2) 0
        = (histCounts es ys).getD (es.length - 2) 0 + 1 := by
    intro ys
    unfold histCounts
    rw [getD_range_map _ _ hidx, getD_range_map _ _ hidx, List.countP_append]
    have hone : List.countP
        (fun v => decide (findBin es v = some (es.length - 2))) [es.getLastD 0] = 1 := by
      simp only [List.countP_cons, List.countP_nil, h1]
      simp
    rw [hone]
  refine ⟨h1, hcount xs, ?_⟩
  rw [maskFilter_append bs xs [true] [es.getLastD 0] hxb.symm]
  have hsing : maskFilter [true] [es.getLastD 0] = [es.getLastD 0] := rfl
  rw [hsing]
  exact hcount (maskFilter bs xs)

/-- C9 witness: the theorem applied to the concrete edge list `[0, 1]`. -/
theorem last_edge_in_last_bin_witness :
    findBin [0, 1] (([0, 1] : List ℚ).getLastD 0) =
      some (([0, 1] : List ℚ).length - 2) :=
  (last_edge_in_last_bin [0, 1] [] []
    (by norm_num [List.chain'_cons, List.chain'_singleton]) (by norm_num) rfl).1

/-- C10: a non-empty approximate-mode call over an explicit proper range
that contains none of the values raises no error and, with `return_all`
false, returns empty centers, efficiencies and error rows: every bin is
empty, so every bin is filtered out. -/
theorem effhist_all_out_of_range_empty (x : List ℚ) (success : List Bool)
    (n : ℕ) (lo hi : ℚ) (_hx : x ≠ []) (hn : 1 ≤ n) (hlh : lo < hi)
    (hout : ∀ v ∈ x, v < lo ∨ hi < v) (hlen : x.length = success.length) :
    effhist x success (.count n) (some (lo, hi)) false false = .ok ⟨[], [], [], []⟩ := by
  have hn0 : n ≠ 0 := by omega
  have hes : computeBinEdges x (.count n) (some (lo, hi)) = .ok (linspace lo hi n) := by
    have hn' : ¬ n < 1 := by omega
    simp [computeBinEdges, getOuterEdges, hn', not_lt.mpr hlh.le, ne_of_lt hlh]
  rw [effhist_ok_filtered hes hlen]
  have hmaskf : ∀ b ∈ validMask (linspace lo hi n) x, b = false := by
    intro b hb
    unfold validMask at hb
    rcases List.mem_map.mp hb with ⟨c, hc, rfl⟩
    unfold histCounts at hc
    rcases List.mem_map.mp hc with ⟨i, _, rfl⟩
    have hcz : x.countP (fun v => decide (findBin (linspace lo hi n) v = some i)) = 0 := by
      rw [List.countP_eq_zero]
      intro v hv
      have hcond : v < (linspace lo hi n).headD 0 ∨ (linspace lo hi n).getLastD 0 < v := by
        rw [linspace_headD, linspace_getLastD lo hi hn0]
        exact hout v hv
      have hnone : findBin (linspace lo hi n) v = none := by
        unfold findBin
        rw [if_pos hcond]
      simp [hnone]
    simp [hcz]
  rw [maskFilter_all_false _ _ hmaskf, maskFilter_all_false _ _ hmaskf,
    maskFilter_all_false _ _ hmaskf, maskFilter_all_false _ _ hmaskf]

/-- C10 witness: the theorem applied at a concrete call whose only value
lies above the supplied range. -/
theorem effhist_all_out_of_range_empty_witness :
    effhist [5] [true] (.count 1) (some (0, 4)) false false = .ok ⟨[], [], [], []⟩ :=
  effhist_all_out_of_range_empty [5] [true] 1 0 4 (by simp) (by norm_num) (by norm_num)
    (by
      intro v hv
      have hv5 : v = 5 := by simpa using hv
      subst hv5
      right
      norm_num) rfl

end Effhist
